import Mathlib

/-!
Verification of the TF-IDF vectorization pipeline of DataPrepper.py.

The embedding is a shallow one: Python dicts (which preserve insertion order
and have unique keys) are modelled as association lists, the external
Tokenizer as an arbitrary function from raw text to a token list, and the
mathematical logarithm of the weight formula as an abstract function on the
rationals.  Fallible code paths (ZeroDivisionError in the progress bar,
KeyError / ZeroDivisionError in the idf lookup) are modelled with Option.
-/

set_option linter.unusedVariables false

namespace DataPrepper

/-- A document-frequency map: token to the list of document names containing
it, in insertion order (models a Python dict from string to list). -/
abbrev DFMap (α δ : Type) := List (α × List δ)

variable {α δ σ τ : Type}

/-- First-match lookup in a document-frequency map (Python dict indexing;
none models a KeyError). -/
def dfLookup [DecidableEq α] : DFMap α δ → α → Option (List δ)
  | [], _ => none
  | (k, v) :: rest, t => if k = t then some v else dfLookup rest t

/-- Keys of a document-frequency map in insertion order (dict.keys()). -/
def dfKeys (m : DFMap α δ) : List α := m.map Prod.fst

/-- Records one occurrence of document doc for token t: appends doc at the
end of t's document list, creating the entry at the end of the map when t is
new (DataPrepper.py lines 93-96, Python dict update semantics). -/
def dfInsert [DecidableEq α] : DFMap α δ → α → δ → DFMap α δ
  | [], t, doc => [(t, [doc])]
  | (k, v) :: rest, t, doc =>
    if k = t then (k, v ++ [doc]) :: rest else (k, v) :: dfInsert rest t doc

/-- Inner loop of tokenize_dataset (lines 89-96): walks a document's token
sequence keeping the list of tokens already processed for this document, and
records the document name once per distinct token. -/
def addDocTokens [DecidableEq α] [DecidableEq δ] (doc : δ) :
    List α → List α → DFMap α δ → DFMap α δ
  | [], _, dfm => dfm
  | t :: ts, proc, dfm =>
    if t ∈ proc then addDocTokens doc ts proc dfm
    else addDocTokens doc ts (proc ++ [t]) (dfInsert dfm t doc)

/-- print_loading_bar (lines 274-282): percentage = (chunk / N) * 100 raises
ZeroDivisionError when N = 0 (modelled as none); otherwise the function only
prints and returns normally. -/
def print_loading_bar (chunk N : ℕ) : Option Unit :=
  if N = 0 then none else some ()

/-- Main loop of tokenize_dataset (lines 85-98): tokenizes each document in
order, replacing its raw text by its token sequence, and accumulates the
document-frequency map on the fly. -/
def tokenizeAux [DecidableEq α] [DecidableEq δ] (tok : τ → List α) :
    List (δ × τ × σ) → List (δ × List α × σ) → DFMap α δ →
    List (δ × List α × σ) × DFMap α δ
  | [], docsAcc, dfm => (docsAcc, dfm)
  | d :: ds, docsAcc, dfm =>
    tokenizeAux tok ds (docsAcc ++ [(d.1, tok d.2.1, d.2.2)])
      (addDocTokens d.1 (tok d.2.1) [] dfm)

/-- tokenize_dataset (lines 79-100).  The initial print_loading_bar call
divides by the document count, so an empty corpus fails (none) before any
work is done. -/
def tokenize_dataset [DecidableEq α] [DecidableEq δ] (tok : τ → List α)
    (corpus : List (δ × τ × σ)) :
    Option (List (δ × List α × σ) × DFMap α δ) :=
  match print_loading_bar 0 corpus.length with
  | none => none
  | some _ => some (tokenizeAux tok corpus [] [])

/-- TF-IDF weight of one token (lines 125-133): (1 + ln tf if tf > 0 else 0)
times ln (N / df), with the logarithm abstracted as a function lg on ℚ. -/
def tfidfWeight (lg : ℚ → ℚ) (N tf df : ℕ) : ℚ :=
  (if 0 < tf then 1 + lg (tf : ℚ) else 0) * lg ((N : ℚ) / (df : ℚ))

/-- The document-frequency map actually consulted for idf (lines 128-131):
the test-set map when test_mode is true and that map is truthy in Python
terms (supplied and non-empty), otherwise the primary map. -/
def dfSource [DecidableEq α] (dfm : DFMap α δ) (dfmTest : Option (DFMap α δ))
    (tm : Bool) : DFMap α δ :=
  match tm, dfmTest with
  | true, some m => if m.isEmpty then dfm else m
  | _, _ => dfm

/-- Token loop of setup_tfidf_vectors for one document (lines 123-134).
doc is the document's full token sequence (used by doc.count), the final
List argument the remaining tokens to process.  A missing df entry
(KeyError) and an empty df list (ZeroDivisionError) are modelled as none. -/
def vecLoop [DecidableEq α] (lg : ℚ → ℚ) (vocab : List α) (N : ℕ)
    (src : DFMap α δ) (doc : List α) : List α → List ℚ → Option (List ℚ)
  | [], fv => some fv
  | u :: us, fv =>
    if u ∈ vocab then
      match dfLookup src u with
      | none => none
      | some ld =>
        if ld.length = 0 then none
        else vecLoop lg vocab N src doc us
          (fv.set (vocab.indexOf u) (tfidfWeight lg N (doc.count u) ld.length))
    else vecLoop lg vocab N src doc us fv

/-- Feature vector of one document (lines 119-134): a zero vector of
vocabulary length updated by the token loop. -/
def docVector [DecidableEq α] (lg : ℚ → ℚ) (vocab : List α) (N : ℕ)
    (src : DFMap α δ) (doc : List α) : Option (List ℚ) :=
  vecLoop lg vocab N src doc doc (List.replicate vocab.length 0)

/-- Document loop of setup_tfidf_vectors (lines 117-140), appending one
(feature vector, label) pair per document. -/
def setupAux [DecidableEq α] (lg : ℚ → ℚ) (vocab : List α) (N : ℕ)
    (src : DFMap α δ) : List (δ × List α × σ) → List (List ℚ × σ) →
    Option (List (List ℚ × σ))
  | [], acc => some acc
  | d :: ds, acc =>
    match docVector lg vocab N src d.2.1 with
    | none => none
    | some fv => setupAux lg vocab N src ds (acc ++ [(fv, d.2.2)])

/-- setup_tfidf_vectors (lines 110-140): vocabulary is the key list of the
primary map, N the number of documents of the corpus being vectorized. -/
def setup_tfidf_vectors [DecidableEq α] (lg : ℚ → ℚ)
    (corpus : List (δ × List α × σ)) (dfm : DFMap α δ)
    (dfmTest : Option (DFMap α δ)) (tm : Bool) :
    Option (List (List ℚ × σ)) :=
  match print_loading_bar 0 corpus.length with
  | none => none
  | some _ =>
    setupAux lg (dfKeys dfm) corpus.length (dfSource dfm dfmTest tm) corpus []

/-- cull_doc_freq (lines 142-148): keeps exactly the entries whose document
count is strictly between low and high. -/
def cull_doc_freq (dfm : DFMap α δ) (low high : ℤ) : DFMap α δ :=
  dfm.filter (fun p =>
    decide ((p.2.length : ℤ) < high) && decide (low < (p.2.length : ℤ)))

/-- run (lines 36-59), after the disk sampling step: tokenize, cull the
vocabulary with low bound 50 and high bound the number of keys of the
document-frequency map, then vectorize in training mode. -/
def run [DecidableEq α] [DecidableEq δ] (lg : ℚ → ℚ) (tok : τ → List α)
    (dataset : List (δ × τ × σ)) :
    Option (List (List ℚ × σ) × DFMap α δ) :=
  match tokenize_dataset tok dataset with
  | none => none
  | some (docs, doc_freq) =>
    match setup_tfidf_vectors lg docs
        (cull_doc_freq doc_freq 50 ((dfKeys doc_freq).length : ℤ))
        none false with
    | none => none
    | some fvc =>
      some (fvc, cull_doc_freq doc_freq 50 ((dfKeys doc_freq).length : ℤ))

/-- run_test (lines 61-71), after the disk sampling step: tokenize the test
corpus and vectorize in test mode against the training document-frequency
map, passing the test corpus's own map as the test-set map.  The debug
prints of elements 0, 20 and 45 of the result are not modelled. -/
def run_test [DecidableEq α] [DecidableEq δ] (lg : ℚ → ℚ) (tok : τ → List α)
    (dataset : List (δ × τ × σ)) (doc_freq : DFMap α δ) :
    Option (List (List ℚ × σ)) :=
  match tokenize_dataset tok dataset with
  | none => none
  | some (docs, doc_freq_testset) =>
    setup_tfidf_vectors lg docs doc_freq (some doc_freq_testset) true

/-- Spec-reading of the idf source selection, used only to compare against
the code: the test-set map is consulted exactly when test mode is on and a
test-set map is supplied at all, regardless of that map being empty. -/
def dfSourceClaim [DecidableEq α] (dfm : DFMap α δ)
    (dfmTest : Option (DFMap α δ)) (tm : Bool) : DFMap α δ :=
  match tm, dfmTest with
  | true, some m => m
  | _, _ => dfm

/-- setup_tfidf_vectors as the claim about the idf source reads it,
differing from the code only in using dfSourceClaim. -/
def setupTfidfClaim [DecidableEq α] (lg : ℚ → ℚ)
    (corpus : List (δ × List α × σ)) (dfm : DFMap α δ)
    (dfmTest : Option (DFMap α δ)) (tm : Bool) :
    Option (List (List ℚ × σ)) :=
  match print_loading_bar 0 corpus.length with
  | none => none
  | some _ =>
    setupAux lg (dfKeys dfm) corpus.length (dfSourceClaim dfm dfmTest tm)
      corpus []

/-- Spec-reading of run, used only to compare against the code: the cull is
invoked with high bound equal to the total number of documents of the
training corpus, as the claim about run states. -/
def runClaim [DecidableEq α] [DecidableEq δ] (lg : ℚ → ℚ) (tok : τ → List α)
    (dataset : List (δ × τ × σ)) :
    Option (List (List ℚ × σ) × DFMap α δ) :=
  match tokenize_dataset tok dataset with
  | none => none
  | some (docs, doc_freq) =>
    match setup_tfidf_vectors lg docs
        (cull_doc_freq doc_freq 50 (dataset.length : ℤ)) none false with
    | none => none
    | some fvc =>
      some (fvc, cull_doc_freq doc_freq 50 (dataset.length : ℤ))

/-- Membership of a document name in a token's recorded document list. -/
def dfMem [DecidableEq α] (dfm : DFMap α δ) (t : α) (d : δ) : Prop :=
  ∃ l, dfLookup dfm t = some l ∧ d ∈ l

/-- Concrete training corpus for the run high-bound comparison: 51 documents,
document i containing tokens 1000 and i, all with class 0. -/
def c7Dataset : List (ℕ × List ℕ × ℕ) :=
  (List.range 51).map (fun i => (i, [1000, i], 0))

/-! Basic lemmas about the map primitives. -/

theorem dfLookup_mem [DecidableEq α] (m : DFMap α δ) (t : α) (l : List δ)
    (h : dfLookup m t = some l) : (t, l) ∈ m := by
  induction m with
  | nil => simp [dfLookup] at h
  | cons q rest ih =>
    obtain ⟨k, v⟩ := q
    by_cases hk : k = t
    · rw [dfLookup, if_pos hk] at h
      injection h with h
      subst hk; subst h
      exact List.mem_cons_self _ _
    · rw [dfLookup, if_neg hk] at h
      exact List.mem_cons_of_mem _ (ih h)

theorem dfLookup_ne_nil [DecidableEq α] (m : DFMap α δ) (t : α) (l : List δ)
    (h : dfLookup m t = some l) : m ≠ [] := by
  intro he
  subst he
  simp [dfLookup] at h

/-! Unfolding lemmas for the token loop of setup_tfidf_vectors. -/

theorem vecLoop_cons_not_mem [DecidableEq α] (lg : ℚ → ℚ) (vocab : List α)
    (N : ℕ) (src : DFMap α δ) (doc : List α) (u : α) (us : List α)
    (fv : List ℚ) (hu : u ∉ vocab) :
    vecLoop lg vocab N src doc (u :: us) fv = vecLoop lg vocab N src doc us fv := by
  simp [vecLoop, hu]

theorem vecLoop_cons_none [DecidableEq α] (lg : ℚ → ℚ) (vocab : List α)
    (N : ℕ) (src : DFMap α δ) (doc : List α) (u : α) (us : List α)
    (fv : List ℚ) (hu : u ∈ vocab) (hld : dfLookup src u = none) :
    vecLoop lg vocab N src doc (u :: us) fv = none := by
  simp [vecLoop, hu, hld]

theorem vecLoop_cons_zero [DecidableEq α] (lg : ℚ → ℚ) (vocab : List α)
    (N : ℕ) (src : DFMap α δ) (doc : List α) (u : α) (us : List α)
    (fv : List ℚ) (ld : List δ) (hu : u ∈ vocab)
    (hld : dfLookup src u = some ld) (hz : ld.length = 0) :
    vecLoop lg vocab N src doc (u :: us) fv = none := by
  simp [vecLoop, hu, hld, hz]

theorem vecLoop_cons_set [DecidableEq α] (lg : ℚ → ℚ) (vocab : List α)
    (N : ℕ) (src : DFMap α δ) (doc : List α) (u : α) (us : List α)
    (fv : List ℚ) (ld : List δ) (hu : u ∈ vocab)
    (hld : dfLookup src u = some ld) (hz : ld.length ≠ 0) :
    vecLoop lg vocab N src doc (u :: us) fv =
      vecLoop lg vocab N src doc us
        (fv.set (vocab.indexOf u) (tfidfWeight lg N (doc.count u) ld.length)) := by
  simp [vecLoop, hu, hld, hz]

theorem vecLoop_length [DecidableEq α] (lg : ℚ → ℚ) (vocab : List α) (N : ℕ)
    (src : DFMap α δ) (doc : List α) :
    ∀ (l : List α) (fv fv' : List ℚ),
      vecLoop lg vocab N src doc l fv = some fv' → fv'.length = fv.length := by
  intro l
  induction l with
  | nil =>
    intro fv fv' h
    simp only [vecLoop] at h
    injection h with h
    rw [h]
  | cons u us ih =>
    intro fv fv' h
    by_cases hu : u ∈ vocab
    · cases hld : dfLookup src u with
      | none => rw [vecLoop_cons_none lg vocab N src doc u us fv hu hld] at h; cases h
      | some ld =>
        by_cases hz : ld.length = 0
        · rw [vecLoop_cons_zero lg vocab N src doc u us fv ld hu hld hz] at h; cases h
        · rw [vecLoop_cons_set lg vocab N src doc u us fv ld hu hld hz] at h
          have := ih _ _ h
          rwa [List.length_set] at this
    · rw [vecLoop_cons_not_mem lg vocab N src doc u us fv hu] at h
      exact ih _ _ h

theorem vecLoop_spec [DecidableEq α] (lg : ℚ → ℚ) (vocab : List α) (N : ℕ)
    (src : DFMap α δ) (doc : List α) (t : α) (ht : t ∈ vocab) :
    ∀ (l : List α) (fv fv' : List ℚ),
      vecLoop lg vocab N src doc l fv = some fv' → fv.length = vocab.length →
      (t ∉ l → fv'[vocab.indexOf t]? = fv[vocab.indexOf t]?) ∧
      (t ∈ l → ∃ ld, dfLookup src t = some ld ∧ 0 < ld.length ∧
        fv'[vocab.indexOf t]? =
          some (tfidfWeight lg N (doc.count t) ld.length)) := by
  intro l
  induction l with
  | nil =>
    intro fv fv' h hlen
    simp only [vecLoop] at h
    injection h with h
    subst h
    exact ⟨fun _ => rfl, fun hmem => absurd hmem (List.not_mem_nil t)⟩
  | cons u us ih =>
    intro fv fv' h hlen
    by_cases hu : u ∈ vocab
    · cases hld : dfLookup src u with
      | none => rw [vecLoop_cons_none lg vocab N src doc u us fv hu hld] at h; cases h
      | some ld =>
        by_cases hz : ld.length = 0
        · rw [vecLoop_cons_zero lg vocab N src doc u us fv ld hu hld hz] at h
          cases h
        · rw [vecLoop_cons_set lg vocab N src doc u us fv ld hu hld hz] at h
          have hlen2 : (fv.set (vocab.indexOf u)
              (tfidfWeight lg N (doc.count u) ld.length)).length = vocab.length := by
            rw [List.length_set]; exact hlen
          obtain ⟨hnot, hmem⟩ := ih _ fv' h hlen2
          by_cases htu : t = u
          · subst htu
            refine ⟨fun hnl => absurd (List.mem_cons_self t us) hnl, fun _ => ?_⟩
            by_cases hts : t ∈ us
            · exact hmem hts
            · refine ⟨ld, hld, Nat.pos_of_ne_zero hz, ?_⟩
              rw [hnot hts]
              have hidx : vocab.indexOf t < fv.length := by
                rw [hlen]; exact List.indexOf_lt_length.mpr ht
              exact List.getElem?_set_eq_of_lt _ hidx
          · have hidx_ne : vocab.indexOf u ≠ vocab.indexOf t := fun he =>
              htu (((List.indexOf_inj ht hu).mp he.symm))
            have hfv2 : (fv.set (vocab.indexOf u)
                (tfidfWeight lg N (doc.count u) ld.length))[vocab.indexOf t]? =
                fv[vocab.indexOf t]? := List.getElem?_set_ne hidx_ne
            refine ⟨fun hnl => ?_, fun hml => ?_⟩
            · have hnus : t ∉ us := fun hh => hnl (List.mem_cons_of_mem _ hh)
              rw [hnot hnus, hfv2]
            · rcases List.mem_cons.mp hml with he | hus
              · exact absurd he htu
              · exact hmem hus
    · rw [vecLoop_cons_not_mem lg vocab N src doc u us fv hu] at h
      obtain ⟨hnot, hmem⟩ := ih fv fv' h hlen
      have htu : t ≠ u := fun he => hu (he ▸ ht)
      refine ⟨fun hnl => hnot (fun hh => hnl (List.mem_cons_of_mem _ hh)),
        fun hml => ?_⟩
      rcases List.mem_cons.mp hml with he | hus
      · exact absurd he htu
      · exact hmem hus

theorem docVector_length [DecidableEq α] (lg : ℚ → ℚ) (vocab : List α) (N : ℕ)
    (src : DFMap α δ) (doc : List α) (fv' : List ℚ)
    (h : docVector lg vocab N src doc = some fv') : fv'.length = vocab.length := by
  have := vecLoop_length lg vocab N src doc doc _ fv' h
  rwa [List.length_replicate] at this

theorem docVector_spec [DecidableEq α] (lg : ℚ → ℚ) (vocab : List α) (N : ℕ)
    (src : DFMap α δ) (doc : List α) (t : α) (ht : t ∈ vocab) (htd : t ∈ doc)
    (fv' : List ℚ) (h : docVector lg vocab N src doc = some fv') :
    ∃ ld, dfLookup src t = some ld ∧ 0 < ld.length ∧
      fv'[vocab.indexOf t]? =
        some (tfidfWeight lg N (doc.count t) ld.length) :=
  (vecLoop_spec lg vocab N src doc t ht doc _ fv' h
    (List.length_replicate vocab.length 0)).2 htd

/-! Unfolding and specification lemmas for the document loop. -/

theorem setupAux_cons_none [DecidableEq α] (lg : ℚ → ℚ) (vocab : List α)
    (N : ℕ) (src : DFMap α δ) (d : δ × List α × σ) (ds : List (δ × List α × σ))
    (acc : List (List ℚ × σ)) (h : docVector lg vocab N src d.2.1 = none) :
    setupAux lg vocab N src (d :: ds) acc = none := by
  simp [setupAux, h]

theorem setupAux_cons_some [DecidableEq α] (lg : ℚ → ℚ) (vocab : List α)
    (N : ℕ) (src : DFMap α δ) (d : δ × List α × σ) (ds : List (δ × List α × σ))
    (acc : List (List ℚ × σ)) (fv : List ℚ)
    (h : docVector lg vocab N src d.2.1 = some fv) :
    setupAux lg vocab N src (d :: ds) acc =
      setupAux lg vocab N src ds (acc ++ [(fv, d.2.2)]) := by
  simp [setupAux, h]

theorem setupAux_append [DecidableEq α] (lg : ℚ → ℚ) (vocab : List α) (N : ℕ)
    (src : DFMap α δ) :
    ∀ (ds : List (δ × List α × σ)) (acc out : List (List ℚ × σ)),
      setupAux lg vocab N src ds acc = some out → ∃ rest, out = acc ++ rest := by
  intro ds
  induction ds with
  | nil =>
    intro acc out h
    simp only [setupAux] at h
    injection h with h
    exact ⟨[], by rw [h, List.append_nil]⟩
  | cons d ds ih =>
    intro acc out h
    cases hdv : docVector lg vocab N src d.2.1 with
    | none => rw [setupAux_cons_none lg vocab N src d ds acc hdv] at h; cases h
    | some fv =>
      rw [setupAux_cons_some lg vocab N src d ds acc fv hdv] at h
      obtain ⟨rest, hrest⟩ := ih _ out h
      exact ⟨(fv, d.2.2) :: rest, by rw [hrest, List.append_assoc]; rfl⟩

theorem setupAux_get [DecidableEq α] (lg : ℚ → ℚ) (vocab : List α) (N : ℕ)
    (src : DFMap α δ) :
    ∀ (ds : List (δ × List α × σ)) (acc out : List (List ℚ × σ)),
      setupAux lg vocab N src ds acc = some out →
      ∀ (i : ℕ) (d : δ × List α × σ), ds[i]? = some d →
        ∃ fv, docVector lg vocab N src d.2.1 = some fv ∧
          out[acc.length + i]? = some (fv, d.2.2) := by
  intro ds
  induction ds with
  | nil => intro acc out h i d hd; simp at hd
  | cons e es ih =>
    intro acc out h i d hd
    cases hdv : docVector lg vocab N src e.2.1 with
    | none => rw [setupAux_cons_none lg vocab N src e es acc hdv] at h; cases h
    | some fv =>
      rw [setupAux_cons_some lg vocab N src e es acc fv hdv] at h
      cases i with
      | zero =>
        have hde : d = e := by
          rw [List.getElem?_cons_zero] at hd
          injection hd with hd
          exact hd.symm
        subst hde
        obtain ⟨rest, hrest⟩ := setupAux_append lg vocab N src es _ out h
        refine ⟨fv, hdv, ?_⟩
        rw [hrest, List.append_assoc, Nat.add_zero,
          List.getElem?_append_right (le_refl acc.length)]
        simp
      | succ n =>
        have hd' : es[n]? = some d := by simpa using hd
        have := ih (acc ++ [(fv, e.2.2)]) out h n d hd'
        rwa [List.length_append, List.length_cons, List.length_nil,
          Nat.zero_add, Nat.add_assoc, Nat.add_comm 1 n] at this

theorem setupAux_lengths [DecidableEq α] (lg : ℚ → ℚ) (vocab : List α) (N : ℕ)
    (src : DFMap α δ) :
    ∀ (ds : List (δ × List α × σ)) (acc out : List (List ℚ × σ)),
      setupAux lg vocab N src ds acc = some out →
      (∀ p ∈ acc, p.1.length = vocab.length) →
      ∀ p ∈ out, p.1.length = vocab.length := by
  intro ds
  induction ds with
  | nil =>
    intro acc out h hacc
    simp only [setupAux] at h
    injection h with h
    rw [← h]
    exact hacc
  | cons e es ih =>
    intro acc out h hacc
    cases hdv : docVector lg vocab N src e.2.1 with
    | none => rw [setupAux_cons_none lg vocab N src e es acc hdv] at h; cases h
    | some fv =>
      rw [setupAux_cons_some lg vocab N src e es acc fv hdv] at h
      refine ih _ out h ?_
      intro p hp
      rcases List.mem_append.mp hp with hold | hnew
      · exact hacc p hold
      · have : p = (fv, e.2.2) := List.mem_singleton.mp hnew
        rw [this]
        exact docVector_length lg vocab N src e.2.1 fv hdv

theorem setup_entry [DecidableEq α] (lg : ℚ → ℚ) (corpus : List (δ × List α × σ))
    (dfm : DFMap α δ) (dfmTest : Option (DFMap α δ)) (tm : Bool)
    (out : List (List ℚ × σ)) (i : ℕ) (name : δ) (toks : List α) (c : σ)
    (t : α) (ld : List δ)
    (hout : setup_tfidf_vectors lg corpus dfm dfmTest tm = some out)
    (hi : corpus[i]? = some (name, toks, c))
    (htd : t ∈ toks) (htv : t ∈ dfKeys dfm)
    (hld : dfLookup (dfSource dfm dfmTest tm) t = some ld) :
    ∃ fv, out[i]? = some (fv, c) ∧
      fv[(dfKeys dfm).indexOf t]? =
        some ((1 + lg ((toks.count t : ℕ) : ℚ)) *
          lg ((corpus.length : ℚ) / (ld.length : ℚ))) := by
  have hne : corpus.length ≠ 0 := by
    intro h0
    rw [List.length_eq_zero] at h0
    subst h0
    simp at hi
  unfold setup_tfidf_vectors at hout
  simp only [print_loading_bar, if_neg hne] at hout
  obtain ⟨fv, hdv, hget⟩ :=
    setupAux_get lg (dfKeys dfm) corpus.length (dfSource dfm dfmTest tm)
      corpus [] out hout i (name, toks, c) hi
  obtain ⟨ld2, hld2, hpos, hfv⟩ :=
    docVector_spec lg (dfKeys dfm) corpus.length (dfSource dfm dfmTest tm)
      toks t htv htd fv hdv
  rw [hld] at hld2
  injection hld2 with he
  subst he
  refine ⟨fv, by simpa using hget, ?_⟩
  rw [hfv]
  unfold tfidfWeight
  rw [if_pos (List.count_pos_iff.mpr htd)]

/-- Claim C1: for every document and every vocabulary token occurring in it,
setup_tfidf_vectors stores at the token's vocabulary index the weight
(1 + ln tf) * ln (N / df), with tf the token's occurrence count in the
document, N the size of the corpus being vectorized, and df the size of the
token's document list in the selected document-frequency map. -/
theorem C1_tfidf_weight_stored [DecidableEq α] (lg : ℚ → ℚ)
    (corpus : List (δ × List α × σ)) (dfm : DFMap α δ)
    (dfmTest : Option (DFMap α δ)) (tm : Bool) (out : List (List ℚ × σ))
    (i : ℕ) (name : δ) (toks : List α) (c : σ) (t : α) (ld : List δ)
    (hout : setup_tfidf_vectors lg corpus dfm dfmTest tm = some out)
    (hi : corpus[i]? = some (name, toks, c))
    (htd : t ∈ toks) (htv : t ∈ dfKeys dfm)
    (hld : dfLookup (dfSource dfm dfmTest tm) t = some ld) :
    ∃ fv, out[i]? = some (fv, c) ∧
      fv[(dfKeys dfm).indexOf t]? =
        some ((1 + lg ((toks.count t : ℕ) : ℚ)) *
          lg ((corpus.length : ℚ) / (ld.length : ℚ))) :=
  setup_entry lg corpus dfm dfmTest tm out i name toks c t ld hout hi htd htv hld

/-- Witness for C1: one document with token 5 once, primary map giving df 1,
training mode; the vector stores (1 + lg tf) * lg (N / df) at index 0. -/
theorem C1_tfidf_weight_stored_witness :
    ∃ fv, ([([tfidfWeight (fun _ => (0 : ℚ)) 1 1 1], (0 : ℕ))] :
        List (List ℚ × ℕ))[0]? = some (fv, 0) ∧
      fv[(dfKeys [((5 : ℕ), [(0 : ℕ)])]).indexOf 5]? =
        some ((1 + (fun _ : ℚ => (0 : ℚ)) ((([(5 : ℕ)].count 5 : ℕ) : ℚ))) *
          (fun _ : ℚ => (0 : ℚ))
            ((([((0 : ℕ), [(5 : ℕ)], (0 : ℕ))].length : ℕ) : ℚ) /
              (([(0 : ℕ)].length : ℕ) : ℚ))) :=
  C1_tfidf_weight_stored (fun _ => 0) [((0 : ℕ), [(5 : ℕ)], (0 : ℕ))]
    [((5 : ℕ), [(0 : ℕ)])] none false
    [([tfidfWeight (fun _ => (0 : ℚ)) 1 1 1], (0 : ℕ))] 0 0 [5] 0 5 [0]
    (by rfl) (by rfl) (by decide) (by decide) (by rfl)

/-- Claim C5: every feature vector returned by setup_tfidf_vectors has
length equal to the number of keys of the primary document-frequency map,
whatever the document's token count. -/
theorem C5_vector_length [DecidableEq α] (lg : ℚ → ℚ)
    (corpus : List (δ × List α × σ)) (dfm : DFMap α δ)
    (dfmTest : Option (DFMap α δ)) (tm : Bool) (out : List (List ℚ × σ))
    (hout : setup_tfidf_vectors lg corpus dfm dfmTest tm = some out) :
    ∀ p ∈ out, p.1.length = (dfKeys dfm).length := by
  by_cases hne : corpus.length = 0
  · unfold setup_tfidf_vectors at hout
    simp [print_loading_bar, hne] at hout
  · unfold setup_tfidf_vectors at hout
    simp only [print_loading_bar, if_neg hne] at hout
    exact setupAux_lengths lg (dfKeys dfm) corpus.length
      (dfSource dfm dfmTest tm) corpus [] out hout (by intro p hp; simp at hp)

/-- Witness for C5: a corpus with a zero-token document and a one-token
document still produces vectors of the vocabulary length 1; the zero-token
document's vector in the output has that length. -/
theorem C5_vector_length_witness :
    (([(0 : ℚ)], (0 : ℕ)) : List ℚ × ℕ).1.length =
      (dfKeys [((5 : ℕ), [(1 : ℕ)])]).length :=
  C5_vector_length (fun _ => 0)
    [((0 : ℕ), ([] : List ℕ), (0 : ℕ)), ((1 : ℕ), [(5 : ℕ)], (0 : ℕ))]
    [((5 : ℕ), [(1 : ℕ)])] none false
    [([(0 : ℚ)], 0), ([tfidfWeight (fun _ => (0 : ℚ)) 2 1 1], 0)]
    (by rfl) ([(0 : ℚ)], 0) (List.mem_cons_self _ _)

theorem dfSource_false [DecidableEq α] (dfm : DFMap α δ)
    (dfmTest : Option (DFMap α δ)) : dfSource dfm dfmTest false = dfm := by
  cases dfmTest <;> rfl

theorem dfSource_none [DecidableEq α] (dfm : DFMap α δ) (tm : Bool) :
    dfSource dfm none tm = dfm := by
  cases tm <;> rfl

theorem dfSource_empty [DecidableEq α] (dfm : DFMap α δ) (tm : Bool) :
    dfSource dfm (some []) tm = dfm := by
  cases tm <;> rfl

theorem dfSource_nonempty [DecidableEq α] (dfm m : DFMap α δ) (hm : m ≠ []) :
    dfSource dfm (some m) true = m := by
  cases m with
  | nil => exact absurd rfl hm
  | cons q rest => rfl

/-- Claim C2, amended: the idf document frequency is read from the test-set
map exactly when the test-mode flag is true and a non-empty test-set map is
supplied (Python dict truthiness); in test mode with no test map or an empty
test map, and in training mode, it is read from the primary map. -/
theorem C2_idf_source_amended [DecidableEq α] (lg : ℚ → ℚ)
    (corpus : List (δ × List α × σ)) (dfm : DFMap α δ)
    (dfmTest : Option (DFMap α δ)) (tm : Bool) (out : List (List ℚ × σ))
    (i : ℕ) (name : δ) (toks : List α) (c : σ) (t : α) (ld : List δ)
    (hout : setup_tfidf_vectors lg corpus dfm dfmTest tm = some out)
    (hi : corpus[i]? = some (name, toks, c))
    (htd : t ∈ toks) (htv : t ∈ dfKeys dfm)
    (hsel : (tm = true ∧ ∃ m, dfmTest = some m ∧ m ≠ [] ∧
        dfLookup m t = some ld) ∨
      ((tm = false ∨ dfmTest = none ∨ dfmTest = some []) ∧
        dfLookup dfm t = some ld)) :
    ∃ fv, out[i]? = some (fv, c) ∧
      fv[(dfKeys dfm).indexOf t]? =
        some ((1 + lg ((toks.count t : ℕ) : ℚ)) *
          lg ((corpus.length : ℚ) / (ld.length : ℚ))) := by
  apply setup_entry lg corpus dfm dfmTest tm out i name toks c t ld hout hi htd htv
  rcases hsel with ⟨htm, m, hm, hmne, hml⟩ | ⟨hcase, hml⟩
  · subst htm
    subst hm
    rw [dfSource_nonempty dfm m hmne]
    exact hml
  · rcases hcase with h | h | h
    · subst h; rw [dfSource_false]; exact hml
    · subst h; rw [dfSource_none]; exact hml
    · subst h; rw [dfSource_empty]; exact hml

/-- Witness for C2: in test mode with a supplied non-empty test-set map the
df of token 5 comes from the test-set map (here df 2, not the primary 1). -/
theorem C2_idf_source_amended_witness :
    ∃ fv, ([([tfidfWeight (fun _ => (0 : ℚ)) 1 1 2], (0 : ℕ))] :
        List (List ℚ × ℕ))[0]? = some (fv, 0) ∧
      fv[(dfKeys [((5 : ℕ), [(0 : ℕ)])]).indexOf 5]? =
        some ((1 + (fun _ : ℚ => (0 : ℚ)) ((([(5 : ℕ)].count 5 : ℕ) : ℚ))) *
          (fun _ : ℚ => (0 : ℚ))
            ((([((0 : ℕ), [(5 : ℕ)], (0 : ℕ))].length : ℕ) : ℚ) /
              (([(0 : ℕ), (1 : ℕ)].length : ℕ) : ℚ))) :=
  C2_idf_source_amended (fun _ => 0) [((0 : ℕ), [(5 : ℕ)], (0 : ℕ))]
    [((5 : ℕ), [(0 : ℕ)])] (some [((5 : ℕ), [(0 : ℕ), (1 : ℕ)])]) true
    [([tfidfWeight (fun _ => (0 : ℚ)) 1 1 2], (0 : ℕ))] 0 0 [5] 0 5
    [(0 : ℕ), (1 : ℕ)] (by rfl) (by rfl) (by decide) (by decide)
    (Or.inl ⟨rfl, [((5 : ℕ), [(0 : ℕ), (1 : ℕ)])], rfl, by decide, by rfl⟩)

/-- Counterexample for C2 as stated: with test mode on and a supplied but
empty test-set map, the code falls back to the primary map and succeeds,
while the claim's reading (always use the supplied test-set map) would hit
a KeyError and fail. -/
theorem C2_idf_source_counterexample :
    (setup_tfidf_vectors (fun _ => (0 : ℚ)) [((0 : ℕ), [(5 : ℕ)], (0 : ℕ))]
      [((5 : ℕ), [(0 : ℕ)])] (some []) true).isSome = true ∧
    setupTfidfClaim (fun _ => (0 : ℚ)) [((0 : ℕ), [(5 : ℕ)], (0 : ℕ))]
      [((5 : ℕ), [(0 : ℕ)])] (some []) true = none :=
  ⟨rfl, rfl⟩

theorem vecLoop_filter [DecidableEq α] (lg : ℚ → ℚ) (vocab : List α) (N : ℕ)
    (src : DFMap α δ) (t : α) (ht : t ∉ vocab) (doc : List α) :
    ∀ (l : List α) (fv : List ℚ),
      vecLoop lg vocab N src (doc.filter (fun u => decide (u ≠ t)))
        (l.filter (fun u => decide (u ≠ t))) fv =
      vecLoop lg vocab N src doc l fv := by
  intro l
  induction l with
  | nil => intro fv; rfl
  | cons u us ih =>
    intro fv
    by_cases hut : u = t
    · subst hut
      have hfe : (u :: us).filter (fun x => decide (x ≠ u)) =
          us.filter (fun x => decide (x ≠ u)) := by simp
      rw [hfe, ih, vecLoop_cons_not_mem lg vocab N src doc u us fv ht]
    · have hfe : (u :: us).filter (fun x => decide (x ≠ t)) =
          u :: us.filter (fun x => decide (x ≠ t)) := by simp [hut]
      rw [hfe]
      by_cases hu : u ∈ vocab
      · cases hld : dfLookup src u with
        | none =>
          rw [vecLoop_cons_none lg vocab N src _ u _ fv hu hld,
              vecLoop_cons_none lg vocab N src doc u us fv hu hld]
        | some ld =>
          by_cases hz : ld.length = 0
          · rw [vecLoop_cons_zero lg vocab N src _ u _ fv ld hu hld hz,
                vecLoop_cons_zero lg vocab N src doc u us fv ld hu hld hz]
          · rw [vecLoop_cons_set lg vocab N src _ u _ fv ld hu hld hz,
                vecLoop_cons_set lg vocab N src doc u us fv ld hu hld hz,
                List.count_filter (by simp [hut]), ih]
      · rw [vecLoop_cons_not_mem lg vocab N src _ u _ fv hu,
            vecLoop_cons_not_mem lg vocab N src doc u us fv hu, ih]

theorem docVector_filter [DecidableEq α] (lg : ℚ → ℚ) (vocab : List α)
    (N : ℕ) (src : DFMap α δ) (t : α) (ht : t ∉ vocab) (doc : List α) :
    docVector lg vocab N src (doc.filter (fun u => decide (u ≠ t))) =
      docVector lg vocab N src doc := by
  unfold docVector
  exact vecLoop_filter lg vocab N src t ht doc doc _

theorem setupAux_filter [DecidableEq α] (lg : ℚ → ℚ) (vocab : List α) (N : ℕ)
    (src : DFMap α δ) (t : α) (ht : t ∉ vocab) :
    ∀ (ds ds2 : List (δ × List α × σ)),
      List.Forall₂ (fun d d2 => d.1 = d2.1 ∧ d.2.2 = d2.2.2 ∧
        (d2.2.1 = d.2.1 ∨ d2.2.1 = d.2.1.filter (fun u => decide (u ≠ t))))
        ds ds2 →
      ∀ acc, setupAux lg vocab N src ds2 acc = setupAux lg vocab N src ds acc := by
  intro ds ds2 hF
  induction hF with
  | nil => intro acc; rfl
  | @cons e e2 es es2 hR hF2 ih =>
    intro acc
    obtain ⟨h1, h2, h3⟩ := hR
    have hdv : docVector lg vocab N src e2.2.1 = docVector lg vocab N src e.2.1 := by
      rcases h3 with he | he
      · rw [he]
      · rw [he, docVector_filter lg vocab N src t ht]
    cases hdd : docVector lg vocab N src e.2.1 with
    | none =>
      rw [setupAux_cons_none lg vocab N src e2 es2 acc (hdv.trans hdd),
          setupAux_cons_none lg vocab N src e es acc hdd]
    | some fv =>
      rw [setupAux_cons_some lg vocab N src e2 es2 acc fv (hdv.trans hdd),
          setupAux_cons_some lg vocab N src e es acc fv hdd, ← h2, ih]

/-- Claim C6: a token t outside the vocabulary never affects any vector
component: for fixed document-frequency maps, vectorizing a corpus in which
any documents have all occurrences of t removed gives the same result as
vectorizing the original corpus. -/
theorem C6_nonvocab_token_inert [DecidableEq α] (lg : ℚ → ℚ)
    (corpus corpus2 : List (δ × List α × σ)) (dfm : DFMap α δ)
    (dfmTest : Option (DFMap α δ)) (tm : Bool) (t : α)
    (ht : t ∉ dfKeys dfm)
    (hF : List.Forall₂ (fun d d2 => d.1 = d2.1 ∧ d.2.2 = d2.2.2 ∧
      (d2.2.1 = d.2.1 ∨ d2.2.1 = d.2.1.filter (fun u => decide (u ≠ t))))
      corpus corpus2) :
    setup_tfidf_vectors lg corpus2 dfm dfmTest tm =
      setup_tfidf_vectors lg corpus dfm dfmTest tm := by
  have hlen : corpus.length = corpus2.length := hF.length_eq
  unfold setup_tfidf_vectors
  rw [← hlen]
  cases hpb : print_loading_bar 0 corpus.length with
  | none => rfl
  | some u =>
    exact setupAux_filter lg (dfKeys dfm) corpus.length
      (dfSource dfm dfmTest tm) t ht corpus corpus2 hF []

/-- Witness for C6: removing every occurrence of the non-vocabulary token 7
from the single document changes nothing. -/
theorem C6_nonvocab_token_inert_witness :
    setup_tfidf_vectors (fun _ => (0 : ℚ)) [((0 : ℕ), [(5 : ℕ)], (0 : ℕ))]
      [((5 : ℕ), [(0 : ℕ)])] none false =
    setup_tfidf_vectors (fun _ => (0 : ℚ))
      [((0 : ℕ), [(5 : ℕ), (7 : ℕ)], (0 : ℕ))] [((5 : ℕ), [(0 : ℕ)])]
      none false :=
  C6_nonvocab_token_inert (fun _ => 0) [((0 : ℕ), [(5 : ℕ), (7 : ℕ)], (0 : ℕ))]
    [((0 : ℕ), [(5 : ℕ)], (0 : ℕ))] [((5 : ℕ), [(0 : ℕ)])] none false 7
    (by decide) (List.Forall₂.cons ⟨rfl, rfl, Or.inr (by decide)⟩ List.Forall₂.nil)

/-! Invariants of the on-the-fly document-frequency build. -/

theorem dfMem_insert_self [DecidableEq α] (m : DFMap α δ) (t : α) (d : δ) :
    dfMem (dfInsert m t d) t d := by
  induction m with
  | nil =>
    exact ⟨[d], by simp [dfInsert, dfLookup], List.mem_singleton_self d⟩
  | cons q rest ih =>
    obtain ⟨k, v⟩ := q
    by_cases hk : k = t
    · subst hk
      exact ⟨v ++ [d], by simp [dfInsert, dfLookup], by simp⟩
    · obtain ⟨l, hl, hd⟩ := ih
      exact ⟨l, by simp [dfInsert, hk, dfLookup, hl], hd⟩

theorem dfMem_insert_mono [DecidableEq α] (m : DFMap α δ) (t : α) (d : δ)
    (s : α) (e : δ) (h : dfMem m s e) : dfMem (dfInsert m t d) s e := by
  induction m with
  | nil =>
    obtain ⟨l, hl, _⟩ := h
    simp [dfLookup] at hl
  | cons q rest ih =>
    obtain ⟨k, v⟩ := q
    obtain ⟨l, hl, he⟩ := h
    by_cases hks : k = s
    · subst hks
      rw [dfLookup, if_pos rfl] at hl
      injection hl with hl
      subst hl
      by_cases hkt : k = t
      · subst hkt
        exact ⟨v ++ [d], by simp [dfInsert, dfLookup],
          List.mem_append_left _ he⟩
      · exact ⟨v, by simp [dfInsert, dfLookup, hkt], he⟩
    · rw [dfLookup, if_neg hks] at hl
      by_cases hkt : k = t
      · subst hkt
        exact ⟨l, by simp [dfInsert, dfLookup, hks, hl], he⟩
      · obtain ⟨l2, hl2, he2⟩ := ih ⟨l, hl, he⟩
        exact ⟨l2, by simp [dfInsert, dfLookup, hkt, hks, hl2], he2⟩

theorem dfMem_addDoc_mono [DecidableEq α] [DecidableEq δ] (n : δ) (s : α)
    (e : δ) :
    ∀ (toks proc : List α) (dfm : DFMap α δ),
      dfMem dfm s e → dfMem (addDocTokens n toks proc dfm) s e := by
  intro toks
  induction toks with
  | nil => intro proc dfm h; exact h
  | cons u us ih =>
    intro proc dfm h
    by_cases hu : u ∈ proc
    · simp only [addDocTokens, if_pos hu]
      exact ih _ _ h
    · simp only [addDocTokens, if_neg hu]
      exact ih _ _ (dfMem_insert_mono dfm u n s e h)

theorem dfMem_addDoc_self [DecidableEq α] [DecidableEq δ] (n : δ) :
    ∀ (toks proc : List α) (dfm : DFMap α δ),
      (∀ s ∈ proc, dfMem dfm s n) →
      ∀ s, s ∈ toks ∨ dfMem dfm s n →
        dfMem (addDocTokens n toks proc dfm) s n := by
  intro toks
  induction toks with
  | nil =>
    intro proc dfm hproc s hs
    rcases hs with h | h
    · exact absurd h (List.not_mem_nil s)
    · exact h
  | cons u us ih =>
    intro proc dfm hproc s hs
    by_cases hu : u ∈ proc
    · simp only [addDocTokens, if_pos hu]
      apply ih proc dfm hproc
      rcases hs with h | h
      · rcases List.mem_cons.mp h with he | hus
        · exact Or.inr (he ▸ hproc u hu)
        · exact Or.inl hus
      · exact Or.inr h
    · simp only [addDocTokens, if_neg hu]
      apply ih (proc ++ [u]) (dfInsert dfm u n)
      · intro s' hs'
        rcases List.mem_append.mp hs' with h | h
        · exact dfMem_insert_mono dfm u n s' n (hproc s' h)
        · have he : s' = u := List.mem_singleton.mp h
          exact he ▸ dfMem_insert_self dfm u n
      · rcases hs with h | h
        · rcases List.mem_cons.mp h with he | hus
          · exact Or.inr (he ▸ dfMem_insert_self dfm u n)
          · exact Or.inl hus
        · exact Or.inr (dfMem_insert_mono dfm u n s n h)

theorem tokenizeAux_dfMem [DecidableEq α] [DecidableEq δ] (tok : τ → List α) :
    ∀ (ds : List (δ × τ × σ)) (docsAcc : List (δ × List α × σ))
      (dfm : DFMap α δ),
      (∀ p ∈ docsAcc, ∀ s ∈ p.2.1, dfMem dfm s p.1) →
      ∀ p ∈ (tokenizeAux tok ds docsAcc dfm).1, ∀ s ∈ p.2.1,
        dfMem (tokenizeAux tok ds docsAcc dfm).2 s p.1 := by
  intro ds
  induction ds with
  | nil => intro docsAcc dfm h; exact h
  | cons d ds ih =>
    intro docsAcc dfm h
    simp only [tokenizeAux]
    apply ih
    intro p hp s hs
    rcases List.mem_append.mp hp with hold | hnew
    · exact dfMem_addDoc_mono d.1 s p.1 (tok d.2.1) [] dfm (h p hold s hs)
    · have he : p = (d.1, tok d.2.1, d.2.2) := List.mem_singleton.mp hnew
      subst he
      exact dfMem_addDoc_self d.1 (tok d.2.1) [] dfm
        (fun s' hs' => absurd hs' (List.not_mem_nil s')) s (Or.inl hs)

theorem dfInsert_inv [DecidableEq α] [DecidableEq δ] (n : δ) (seen : List δ)
    (hn : n ∉ seen) (u : α) (proc : List α) (hu : u ∉ proc) :
    ∀ (dfm : DFMap α δ),
      (∀ p ∈ dfm, p.2.Nodup ∧ ∀ d ∈ p.2, d ∈ seen ∨ (d = n ∧ p.1 ∈ proc)) →
      ∀ p ∈ dfInsert dfm u n, p.2.Nodup ∧
        ∀ d ∈ p.2, d ∈ seen ∨ (d = n ∧ p.1 ∈ proc ++ [u]) := by
  intro dfm
  induction dfm with
  | nil =>
    intro hinv p hp
    simp only [dfInsert] at hp
    have he : p = (u, [n]) := List.mem_singleton.mp hp
    subst he
    refine ⟨List.nodup_singleton n, fun d hd => ?_⟩
    have hdn : d = n := List.mem_singleton.mp hd
    exact Or.inr ⟨hdn, List.mem_append_right _ (List.mem_singleton_self u)⟩
  | cons q rest ih =>
    intro hinv p hp
    obtain ⟨k, v⟩ := q
    by_cases hk : k = u
    · simp only [dfInsert, if_pos hk] at hp
      rcases List.mem_cons.mp hp with he | hrest
      · subst he
        have hkv := hinv (k, v) (List.mem_cons_self _ _)
        have hnv : n ∉ v := by
          intro hnv
          rcases hkv.2 n hnv with h | ⟨_, hkp⟩
          · exact hn h
          · exact hu (hk ▸ hkp)
        refine ⟨?_, fun d hd => ?_⟩
        · rw [List.nodup_append]
          exact ⟨hkv.1, List.nodup_singleton n,
            fun a ha hb => (List.mem_singleton.mp hb ▸ hnv) ha⟩
        · rcases List.mem_append.mp hd with hdv | hdn
          · rcases hkv.2 d hdv with h | ⟨h1, h2⟩
            · exact Or.inl h
            · exact Or.inr ⟨h1, List.mem_append_left _ h2⟩
          · refine Or.inr ⟨List.mem_singleton.mp hdn, ?_⟩
            rw [hk]
            exact List.mem_append_right _ (List.mem_singleton_self u)
      · have hq := hinv p (List.mem_cons_of_mem _ hrest)
        exact ⟨hq.1, fun d hd => (hq.2 d hd).imp id
          (fun hh => ⟨hh.1, List.mem_append_left _ hh.2⟩)⟩
    · simp only [dfInsert, if_neg hk] at hp
      rcases List.mem_cons.mp hp with he | hrest
      · subst he
        have hq := hinv (k, v) (List.mem_cons_self _ _)
        exact ⟨hq.1, fun d hd => (hq.2 d hd).imp id
          (fun hh => ⟨hh.1, List.mem_append_left _ hh.2⟩)⟩
      · exact ih (fun p' hp' => hinv p' (List.mem_cons_of_mem _ hp')) p hrest

theorem addDocTokens_inv [DecidableEq α] [DecidableEq δ] (n : δ)
    (seen : List δ) (hn : n ∉ seen) :
    ∀ (toks proc : List α) (dfm : DFMap α δ),
      (∀ p ∈ dfm, p.2.Nodup ∧ ∀ d ∈ p.2, d ∈ seen ∨ (d = n ∧ p.1 ∈ proc)) →
      ∀ p ∈ addDocTokens n toks proc dfm, p.2.Nodup ∧
        ∀ d ∈ p.2, d ∈ seen ∨ d = n := by
  intro toks
  induction toks with
  | nil =>
    intro proc dfm hinv p hp
    have hq := hinv p hp
    exact ⟨hq.1, fun d hd => (hq.2 d hd).imp id And.left⟩
  | cons u us ih =>
    intro proc dfm hinv p hp
    by_cases hu : u ∈ proc
    · simp only [addDocTokens, if_pos hu] at hp
      exact ih proc dfm hinv p hp
    · simp only [addDocTokens, if_neg hu] at hp
      exact ih (proc ++ [u]) (dfInsert dfm u n)
        (dfInsert_inv n seen hn u proc hu dfm hinv) p hp

theorem tokenizeAux_nodup [DecidableEq α] [DecidableEq δ] (tok : τ → List α) :
    ∀ (ds : List (δ × τ × σ)) (docsAcc : List (δ × List α × σ))
      (dfm : DFMap α δ) (seen : List δ),
      (ds.map Prod.fst).Nodup → (∀ d ∈ ds, d.1 ∉ seen) →
      (∀ p ∈ dfm, p.2.Nodup ∧ ∀ d ∈ p.2, d ∈ seen) →
      ∀ p ∈ (tokenizeAux tok ds docsAcc dfm).2, p.2.Nodup := by
  intro ds
  induction ds with
  | nil => intro docsAcc dfm seen h1 h2 h3 p hp; exact (h3 p hp).1
  | cons d ds ih =>
    intro docsAcc dfm seen h1 h2 h3 p hp
    simp only [tokenizeAux] at hp
    have hn : d.1 ∉ seen := h2 d (List.mem_cons_self _ _)
    have hinv : ∀ p ∈ dfm, p.2.Nodup ∧
        ∀ e ∈ p.2, e ∈ seen ∨ (e = d.1 ∧ p.1 ∈ ([] : List α)) :=
      fun p' hp' => ⟨(h3 p' hp').1, fun e he => Or.inl ((h3 p' hp').2 e he)⟩
    have hstep := addDocTokens_inv d.1 seen hn (tok d.2.1) [] dfm hinv
    have h1' : d.1 ∉ ds.map Prod.fst ∧ (ds.map Prod.fst).Nodup := by
      rw [List.map_cons, List.nodup_cons] at h1
      exact h1
    refine ih (docsAcc ++ [(d.1, tok d.2.1, d.2.2)])
      (addDocTokens d.1 (tok d.2.1) [] dfm) (d.1 :: seen) h1'.2 ?_ ?_ p hp
    · intro d' hd' hcon
      rcases List.mem_cons.mp hcon with heq | hseen
      · exact h1'.1 (heq ▸ List.mem_map_of_mem Prod.fst hd')
      · exact h2 d' (List.mem_cons_of_mem _ hd') hseen
    · intro p' hp'
      have hq := hstep p' hp'
      refine ⟨hq.1, fun e he => ?_⟩
      rcases hq.2 e he with h | h
      · exact List.mem_cons_of_mem _ h
      · exact h ▸ List.mem_cons_self _ _

/-- Claim C4: after tokenize_dataset, each document name appears at most
once in each token's document list; a token occurring any number of times
in one document contributes exactly 1 to that token's document count. -/
theorem C4_df_set_based [DecidableEq α] [DecidableEq δ] (tok : τ → List α)
    (corpus : List (δ × τ × σ)) (docs : List (δ × List α × σ))
    (dfmT : DFMap α δ)
    (h : tokenize_dataset tok corpus = some (docs, dfmT))
    (hnd : (corpus.map Prod.fst).Nodup) :
    (∀ p ∈ dfmT, ∀ d : δ, p.2.count d ≤ 1) ∧
    (∀ name toks c, (name, toks, c) ∈ docs → ∀ t ∈ toks,
      ∃ l, dfLookup dfmT t = some l ∧ l.count name = 1) := by
  unfold tokenize_dataset at h
  by_cases h0 : corpus.length = 0
  · simp [print_loading_bar, h0] at h
  · simp only [print_loading_bar, if_neg h0] at h
    injection h with h
    have hnodup : ∀ p ∈ dfmT, p.2.Nodup := by
      have := tokenizeAux_nodup tok corpus [] [] [] hnd
        (fun d _ => List.not_mem_nil d.1) (fun p hp => absurd hp (List.not_mem_nil p))
      rw [h] at this
      exact this
    constructor
    · exact fun p hp d => List.nodup_iff_count_le_one.mp (hnodup p hp) d
    · intro name toks c hmem t ht
      have hM := tokenizeAux_dfMem tok corpus [] []
        (fun p hp => absurd hp (List.not_mem_nil p))
      rw [h] at hM
      obtain ⟨l, hl, hnl⟩ := hM (name, toks, c) hmem t ht
      exact ⟨l, hl, List.count_eq_one_of_mem
        (hnodup (t, l) (dfLookup_mem dfmT t l hl)) hnl⟩

/-- Witness for C4: a document repeating token 5 three times records the
document exactly once in token 5's list. -/
theorem C4_df_set_based_witness :
    (∀ p ∈ ([((5 : ℕ), [(0 : ℕ)])] : DFMap ℕ ℕ), ∀ d : ℕ, p.2.count d ≤ 1) ∧
    (∀ name toks c,
      (name, toks, c) ∈ ([((0 : ℕ), [(5 : ℕ), 5, 5], (0 : ℕ))] :
        List (ℕ × List ℕ × ℕ)) →
      ∀ t ∈ toks, ∃ l, dfLookup ([((5 : ℕ), [(0 : ℕ)])] : DFMap ℕ ℕ) t =
        some l ∧ l.count name = 1) :=
  C4_df_set_based (fun x => x) [((0 : ℕ), ([5, 5, 5] : List ℕ), (0 : ℕ))]
    [((0 : ℕ), [(5 : ℕ), 5, 5], (0 : ℕ))] [((5 : ℕ), [(0 : ℕ)])]
    (by decide) (by decide)

theorem vecLoop_isSome [DecidableEq α] (lg : ℚ → ℚ) (vocab : List α) (N : ℕ)
    (src : DFMap α δ) (doc : List α) :
    ∀ (l : List α) (fv : List ℚ),
      (∀ u ∈ l, ∃ ld, dfLookup src u = some ld ∧ ld ≠ []) →
      (vecLoop lg vocab N src doc l fv).isSome = true := by
  intro l
  induction l with
  | nil => intro fv h; rfl
  | cons u us ih =>
    intro fv h
    by_cases hu : u ∈ vocab
    · obtain ⟨ld, hld, hne⟩ := h u (List.mem_cons_self _ _)
      have hz : ld.length ≠ 0 := fun hz =>
        hne (List.length_eq_zero.mp hz)
      rw [vecLoop_cons_set lg vocab N src doc u us fv ld hu hld hz]
      exact ih _ (fun u' hu' => h u' (List.mem_cons_of_mem _ hu'))
    · rw [vecLoop_cons_not_mem lg vocab N src doc u us fv hu]
      exact ih _ (fun u' hu' => h u' (List.mem_cons_of_mem _ hu'))

theorem setupAux_isSome [DecidableEq α] (lg : ℚ → ℚ) (vocab : List α) (N : ℕ)
    (src : DFMap α δ) :
    ∀ (ds : List (δ × List α × σ)) (acc : List (List ℚ × σ)),
      (∀ d ∈ ds, ∀ u ∈ d.2.1, ∃ ld, dfLookup src u = some ld ∧ ld ≠ []) →
      (setupAux lg vocab N src ds acc).isSome = true := by
  intro ds
  induction ds with
  | nil => intro acc h; rfl
  | cons e es ih =>
    intro acc h
    have hdv : (docVector lg vocab N src e.2.1).isSome = true :=
      vecLoop_isSome lg vocab N src e.2.1 e.2.1 _
        (fun u hu => h e (List.mem_cons_self _ _) u hu)
    obtain ⟨fv, hfv⟩ := Option.isSome_iff_exists.mp hdv
    rw [setupAux_cons_some lg vocab N src e es acc fv hfv]
    exact ih _ (fun d hd => h d (List.mem_cons_of_mem _ hd))

/-- Claim C9: in the test-mode pipeline, every token of a tokenized test
document that is in the training vocabulary has a non-empty entry in the
test corpus's own document-frequency map, the map actually selected for
idf; the lookup succeeds, N / df is strictly positive, and the whole
vectorization call of run_test cannot fail. -/
theorem C9_test_mode_df_safe [DecidableEq α] [DecidableEq δ] (lg : ℚ → ℚ)
    (tok : τ → List α) (dataset : List (δ × τ × σ)) (dfm : DFMap α δ)
    (docs : List (δ × List α × σ)) (dfmT : DFMap α δ)
    (name : δ) (toks : List α) (c : σ) (t : α)
    (h : tokenize_dataset tok dataset = some (docs, dfmT))
    (hmem : (name, toks, c) ∈ docs) (ht : t ∈ toks) (hv : t ∈ dfKeys dfm) :
    (∃ l, dfLookup (dfSource dfm (some dfmT) true) t = some l ∧
      0 < l.length ∧ 0 < (docs.length : ℚ) / (l.length : ℚ)) ∧
    (setup_tfidf_vectors lg docs dfm (some dfmT) true).isSome = true := by
  unfold tokenize_dataset at h
  by_cases h0 : dataset.length = 0
  · simp [print_loading_bar, h0] at h
  · simp only [print_loading_bar, if_neg h0] at h
    injection h with h
    have hM := tokenizeAux_dfMem tok dataset [] []
      (fun p hp => absurd hp (List.not_mem_nil p))
    rw [h] at hM
    obtain ⟨l, hl, hnl⟩ := hM (name, toks, c) hmem t ht
    have hTne : dfmT ≠ [] := dfLookup_ne_nil dfmT t l hl
    have hsrc : dfSource dfm (some dfmT) true = dfmT :=
      dfSource_nonempty dfm dfmT hTne
    have hlpos : 0 < l.length :=
      List.length_pos.mpr (List.ne_nil_of_mem hnl)
    have hdocs : docs.length ≠ 0 := fun hd =>
      (List.ne_nil_of_mem hmem) (List.length_eq_zero.mp hd)
    constructor
    · refine ⟨l, ?_, hlpos, ?_⟩
      · rw [hsrc]; exact hl
      apply div_pos
      · exact_mod_cast Nat.pos_of_ne_zero hdocs
      · exact_mod_cast hlpos
    · unfold setup_tfidf_vectors
      simp only [print_loading_bar, if_neg hdocs]
      rw [hsrc]
      apply setupAux_isSome
      intro d hd u hu
      obtain ⟨l', hl', hnl'⟩ := hM d hd u hu
      exact ⟨l', hl', List.ne_nil_of_mem hnl'⟩

/-- Witness for C9: a one-document test corpus whose token 5 is in the
training vocabulary; the selected df source is the test map with df 1. -/
theorem C9_test_mode_df_safe_witness :
    (∃ l, dfLookup (dfSource [((5 : ℕ), [(9 : ℕ)])]
        (some [((5 : ℕ), [(0 : ℕ)])]) true) 5 = some l ∧
      0 < l.length ∧
      0 < ((([((0 : ℕ), [(5 : ℕ)], (0 : ℕ))] :
        List (ℕ × List ℕ × ℕ)).length : ℚ) / (l.length : ℚ))) ∧
    (setup_tfidf_vectors (fun _ => (0 : ℚ)) [((0 : ℕ), [(5 : ℕ)], (0 : ℕ))]
      [((5 : ℕ), [(9 : ℕ)])] (some [((5 : ℕ), [(0 : ℕ)])]) true).isSome =
      true :=
  C9_test_mode_df_safe (fun _ => 0) (fun x => x)
    [((0 : ℕ), ([5] : List ℕ), (0 : ℕ))] [((5 : ℕ), [(9 : ℕ)])]
    [((0 : ℕ), [(5 : ℕ)], (0 : ℕ))] [((5 : ℕ), [(0 : ℕ)])] 0 [5] 0 5
    (by decide) (by decide) (by decide) (by decide)

/-- Claim C3: cull_doc_freq keeps exactly the entries with count strictly
between the bounds, and degenerate bounds give an empty map, not an error. -/
theorem C3_cull_strict_range (dfm : DFMap α δ) (low high : ℤ) :
    (∀ p, p ∈ cull_doc_freq dfm low high ↔
      p ∈ dfm ∧ low < (p.2.length : ℤ) ∧ (p.2.length : ℤ) < high) ∧
    (high ≤ low → cull_doc_freq dfm low high = []) := by
  constructor
  · intro p
    simp only [cull_doc_freq, List.mem_filter, Bool.and_eq_true, decide_eq_true_eq]
    tauto
  · intro h
    simp only [cull_doc_freq, List.filter_eq_nil_iff, Bool.and_eq_true, decide_eq_true_eq]
    intro p hp hcon
    omega

/-- Witness for C3 at concrete inputs: equal bounds exclude an entry whose
count lies at the boundary, and low ≥ high empties the vocabulary. -/
theorem C3_cull_strict_range_witness :
    cull_doc_freq [((0 : ℕ), [(0 : ℕ)])] 3 3 = [] ∧
    (((0 : ℕ), [(0 : ℕ)]) ∈ cull_doc_freq [((0 : ℕ), [(0 : ℕ)])] 0 2 ↔
      ((0 : ℕ), [(0 : ℕ)]) ∈ ([((0 : ℕ), [(0 : ℕ)])] : DFMap ℕ ℕ) ∧
      (0 : ℤ) < ((1 : ℕ) : ℤ) ∧ (((1 : ℕ) : ℤ)) < 2) :=
  ⟨(C3_cull_strict_range [((0 : ℕ), [(0 : ℕ)])] 3 3).2 (by decide),
   (C3_cull_strict_range [((0 : ℕ), [(0 : ℕ)])] 0 2).1 ((0, [0]))⟩

/-- Claim C8: cull_doc_freq is a pure filter: its result is a sublist of the
input (every returned entry is literally an entry of the input, in order),
so the input map's keys and document lists are untouched. -/
theorem C8_cull_pure_filter (dfm : DFMap α δ) (low high : ℤ) :
    (cull_doc_freq dfm low high).Sublist dfm ∧
    ∀ p ∈ cull_doc_freq dfm low high, p ∈ dfm := by
  refine ⟨List.filter_sublist dfm, fun p hp => ?_⟩
  exact (List.filter_sublist dfm).subset hp

/-- Claim C7, amended: run invokes the cull with low bound 50 and high
bound equal to the number of distinct tokens (keys) of the pre-cull
document-frequency map — not the number of training documents. -/
theorem C7_cull_bounds_amended [DecidableEq α] [DecidableEq δ] (lg : ℚ → ℚ)
    (tok : τ → List α) (dataset : List (δ × τ × σ))
    (docs : List (δ × List α × σ)) (dfm : DFMap α δ)
    (h : tokenize_dataset tok dataset = some (docs, dfm)) :
    run lg tok dataset =
      (setup_tfidf_vectors lg docs
        (cull_doc_freq dfm 50 ((dfKeys dfm).length : ℤ)) none false).map
        (fun f => (f, cull_doc_freq dfm 50 ((dfKeys dfm).length : ℤ))) := by
  unfold run
  simp only [h]
  cases hs : setup_tfidf_vectors lg docs
      (cull_doc_freq dfm 50 ((dfKeys dfm).length : ℤ)) none false with
  | none => simp [hs]
  | some fvc => simp [hs]

/-- Witness for C7 at a concrete one-document corpus. -/
theorem C7_cull_bounds_amended_witness :
    run (fun _ => (0 : ℚ)) (fun x => x) [((0 : ℕ), ([5] : List ℕ), (0 : ℕ))] =
      (setup_tfidf_vectors (fun _ => (0 : ℚ)) [((0 : ℕ), [(5 : ℕ)], (0 : ℕ))]
        (cull_doc_freq [((5 : ℕ), [(0 : ℕ)])] 50
          ((dfKeys [((5 : ℕ), [(0 : ℕ)])]).length : ℤ)) none false).map
        (fun f => (f, cull_doc_freq [((5 : ℕ), [(0 : ℕ)])] 50
          ((dfKeys [((5 : ℕ), [(0 : ℕ)])]).length : ℤ))) :=
  C7_cull_bounds_amended (fun _ => 0) (fun x => x)
    [((0 : ℕ), ([5] : List ℕ), (0 : ℕ))] [((0 : ℕ), [(5 : ℕ)], (0 : ℕ))]
    [((5 : ℕ), [(0 : ℕ)])] (by rfl)

set_option maxRecDepth 40000 in
/-- Counterexample for C7 as stated: on 51 documents sharing token 1000 and
carrying one private token each, the real run culls with high bound 52 (the
key count) and keeps token 1000 (df 51), so the returned vocabulary has one
key; culling with the claimed high bound 51 (the document count) would
exclude it and return an empty vocabulary. -/
theorem C7_cull_bounds_counterexample :
    (run (fun _ => (0 : ℚ)) (fun x => x) c7Dataset).map
      (fun r => (dfKeys r.2).length) = some 1 ∧
    (runClaim (fun _ => (0 : ℚ)) (fun x => x) c7Dataset).map
      (fun r => (dfKeys r.2).length) = some 0 := by
  constructor
  · rfl
  · rfl

/-- Claim C10: on an empty corpus the progress-bar computation divides by
the document count 0, so tokenize_dataset, run and run_test all fail
instead of returning an empty result. -/
theorem C10_empty_corpus_divzero [DecidableEq α] [DecidableEq δ]
    (lg : ℚ → ℚ) (tok : τ → List α) (dfm : DFMap α δ) :
    print_loading_bar 0 0 = none ∧
    tokenize_dataset tok ([] : List (δ × τ × σ)) = none ∧
    run lg tok ([] : List (δ × τ × σ)) = none ∧
    run_test lg tok ([] : List (δ × τ × σ)) dfm = none :=
  ⟨rfl, rfl, rfl, rfl⟩

end DataPrepper
